import Mathlib

/-!
Verification development for the novem CLI comment/topic subsystem
(src/novem/cli/gql.py): the adaptive-depth topic fetcher, the truncation
detector, the ANSI-aware width helper, the line wrapper and the comment
tree renderer.

Python strings are modelled as `List Char`.  Python library functions the
source calls (`textwrap.wrap`, `str.splitlines`, `re.sub` for the ANSI
pattern, `str.expandtabs`, `str.replace`, `str.split`) are modelled by
executable scanners that follow the CPython semantics of those calls with
their default options; character classes of the `re` patterns are modelled
on their ASCII meaning.
-/

abbrev Str := List Char

/-- Shorthand turning a `String` literal into its character list. -/
def S (s : String) : Str := s.toList

/-- Membership in the 6-character whitespace set `'\t\n\x0b\x0c\r '` that
CPython `textwrap` uses for its word separation. -/
def wsChar (c : Char) : Bool :=
  c == '\t' || c == '\n' || c == '\x0b' || c == '\x0c' || c == '\r' || c == ' '

/-- Model of the regex class `\w` (word character), ASCII reading:
alphanumeric or underscore. -/
def pyWordChar (c : Char) : Bool := c.isAlphanum || c == '_'

/-- Model of the regex class `[^\d\W]` (word character that is not a
digit), used by textwrap for hyphenation decisions. -/
def letterChar (c : Char) : Bool := pyWordChar c && !c.isDigit

/-- Model of textwrap's `word_punct` class: word characters plus a few
punctuation marks. -/
def wordPunct (c : Char) : Bool :=
  pyWordChar c || c == '!' || c == '"' || c.toNat == 39 || c == '&' || c == '.' || c == ',' || c == '?'

/-- Characters stripped by Python `str.strip()` with no argument
(the Unicode whitespace set used by `str.isspace`). -/
def pyStrSpace (c : Char) : Bool :=
  let n := c.toNat
  (9 ≤ n && n ≤ 13) || (28 ≤ n && n ≤ 31) || n == 32 || n == 133 || n == 160 ||
    n == 5760 || (8192 ≤ n && n ≤ 8202) || n == 8232 || n == 8233 || n == 8239 ||
    n == 8287 || n == 12288

/-- Test `chunk.strip() == ''`: every character of the chunk is Python
whitespace (true for the empty string). -/
def isBlank (chunk : Str) : Bool := chunk.all pyStrSpace

/-- Line boundary characters recognised by Python `str.splitlines`
(besides the combined boundary `'\r\n'`). -/
def lineBreakChar (c : Char) : Bool :=
  c == '\n' || c == '\r' || c == '\x0b' || c == '\x0c' || c == '\x1c' ||
    c == '\x1d' || c == '\x1e' || c == '\x85' || c.toNat == 8232 || c.toNat == 8233

/-- Scanner for Python `str.splitlines`: `acc` holds the current segment
reversed; a trailing line boundary opens no further segment. -/
def splitlinesGo : List Char → List Char → List Str
  | [], acc => if acc.isEmpty then [] else [acc.reverse]
  | [c], acc =>
    if lineBreakChar c then acc.reverse :: splitlinesGo [] []
    else splitlinesGo [] (c :: acc)
  | c :: d :: rest, acc =>
    if c = '\r' ∧ d = '\n' then acc.reverse :: splitlinesGo rest []
    else if lineBreakChar c then acc.reverse :: splitlinesGo (d :: rest) []
    else splitlinesGo (d :: rest) (c :: acc)

/-- Model of Python `str.splitlines()`. -/
def pySplitlines (t : Str) : List Str := splitlinesGo t []

/-- Attempt to parse the tail of an ANSI SGR sequence (after the escape
character): `'['`, a run of digits and semicolons, then `'m'`; returns the
remainder on success.  Models the regex `\033\[[0-9;]*m` of
`_visible_len` at one match site. -/
def trySgr : List Char → Option (List Char)
  | '[' :: rest =>
    let ps := rest.takeWhile fun c => c.isDigit || c == ';'
    match rest.drop ps.length with
    | 'm' :: rem => some rem
    | _ => none
  | _ => none

/-- Fuelled scanner for `re.sub(r"\033\[[0-9;]*m", "", s)`: removes each
leftmost SGR sequence, keeps every other character (a lone escape that
does not open a well-formed sequence stays literal).  Each step consumes
at least one character, so fuel equal to the length is always enough. -/
def stripAnsiF : Nat → List Char → List Char
  | 0, l => l
  | _ + 1, [] => []
  | fuel + 1, c :: rest =>
    if c == '\x1b' then
      match trySgr rest with
      | some rem => stripAnsiF fuel rem
      | none => c :: stripAnsiF fuel rest
    else c :: stripAnsiF fuel rest

/-- Model of `_visible_len` (src/novem/cli/gql.py): the length of the
string after removing all ANSI SGR escape sequences. -/
def _visible_len (s : Str) : Nat := (stripAnsiF s.length s).length

/-- Model of CPython `str.expandtabs(8)`: each tab is replaced by spaces
up to the next multiple of 8 of the current column; the column resets
after `'\n'` and `'\r'`. -/
def expandTabsGo : List Char → Nat → List Char
  | [], _ => []
  | c :: cs, col =>
    if c == '\t' then
      let pad := 8 - col % 8
      List.replicate pad ' ' ++ expandTabsGo cs (col + pad)
    else if c == '\n' || c == '\r' then c :: expandTabsGo cs 0
    else c :: expandTabsGo cs (col + 1)

/-- Model of `TextWrapper._munge_whitespace` with default options:
`expandtabs` followed by translating each of `'\t\n\x0b\x0c\r '` to a
space. -/
def mungeWhitespace (t : Str) : Str :=
  (expandTabsGo t 0).map fun c => if wsChar c then ' ' else c

/-- Lookbehind of textwrap's hyphenated-word alternative, applied to the
reversed prefix ending right after the consumed hyphen: either
`letter letter -` or `letter - letter -` precede the current position. -/
def lbA : List Char → Bool
  | '-' :: x :: '-' :: y :: _ => letterChar x && letterChar y
  | '-' :: x :: y :: _ => letterChar x && letterChar y
  | _ => false

/-- Lookahead of textwrap's hyphenated-word alternative: a letter, an
optional hyphen, then a letter must follow. -/
def laA : List Char → Bool
  | x :: '-' :: z :: _ => letterChar x && letterChar z
  | x :: y :: _ => letterChar x && letterChar y
  | _ => false

/-- Lazy scan of textwrap's word alternative `\S+?(...)`: `cons` holds the
characters consumed so far (reversed, nonempty), `before` the reversed
text before the match.  At each width the three closing alternatives are
tried in regex order: consume a hyphen under the hyphenation
look-arounds, stop before whitespace or at the end, or stop after word
punctuation when an em-dash run followed by a word character comes next;
otherwise one more character is consumed. -/
def b3go (before : List Char) : List Char → List Char → Str × List Char
  | cons, [] => (cons.reverse, [])
  | cons, r :: rs =>
    if r == '-' && lbA (('-' :: cons) ++ before) && laA rs then
      (('-' :: cons).reverse, rs)
    else if wsChar r then (cons.reverse, r :: rs)
    else if (match cons.head? with | some p => wordPunct p | none => false)
        && (let hr := (r :: rs).takeWhile fun d => d == '-'
            decide (2 ≤ hr.length) &&
              (match ((r :: rs).drop hr.length).head? with
               | some w => pyWordChar w
               | none => false)) then
      (cons.reverse, r :: rs)
    else b3go before (r :: cons) rs

/-- Fuelled scanner for `TextWrapper._split` (the `wordsep_re` split):
whitespace runs, em-dash runs preceded by word punctuation and followed
by a word character, and words cut by the lazy alternative `b3go`.
Every chunk consumes at least one character. -/
def splitChunksF : Nat → List Char → List Char → List Str
  | 0, _, _ => []
  | _ + 1, _, [] => []
  | fuel + 1, before, c :: cs =>
    if wsChar c then
      let run := (c :: cs).takeWhile wsChar
      run :: splitChunksF fuel (run.reverse ++ before) ((c :: cs).drop run.length)
    else
      let hyRun := (c :: cs).takeWhile fun d => d == '-'
      if (match before.head? with | some p => wordPunct p | none => false)
          && decide (2 ≤ hyRun.length)
          && (match ((c :: cs).drop hyRun.length).head? with
              | some w => pyWordChar w
              | none => false) then
        hyRun :: splitChunksF fuel (hyRun.reverse ++ before) ((c :: cs).drop hyRun.length)
      else
        let pr := b3go before [c] cs
        pr.1 :: splitChunksF fuel (pr.1.reverse ++ before) pr.2

/-- Model of `TextWrapper._split` applied to munged text. -/
def splitChunks (t : Str) : List Str := splitChunksF (t.length + 1) [] t

/-- Greedy packing step of `_wrap_chunks`: take chunks while the current
length stays within the width; returns packed chunks, the remaining
chunks and the resulting length. -/
def packChunks (W : Nat) : List Str → Nat → List Str × List Str × Nat
  | [], cur => ([], [], cur)
  | c :: cs, cur =>
    if cur + c.length ≤ W then
      let r := packChunks W cs (cur + c.length)
      (c :: r.1, r.2.1, r.2.2)
    else ([], c :: cs, cur)

/-- Index of the last hyphen of a list, if any. -/
def lastHyphenIdx : List Char → Option Nat
  | [] => none
  | c :: cs =>
    match lastHyphenIdx cs with
    | some j => some (j + 1)
    | none => if c == '-' then some 0 else none

/-- Model of `str.rfind('-', 0, bound)` returning the largest index below
`bound` holding a hyphen, if any. -/
def rfindHyphen (chunk : Str) (bound : Nat) : Option Nat :=
  lastHyphenIdx (chunk.take bound)

/-- Model of `TextWrapper._handle_long_word` with `break_long_words` and
`break_on_hyphens` on: bite off the space left on the current line,
preferring to cut just after the last hyphen that has a non-hyphen before
it. -/
def handleLongWord (W : Nat) (chunks curLine : List Str) (curLen : Nat) :
    List Str × List Str :=
  match chunks with
  | [] => (chunks, curLine)
  | chunk :: rest =>
    let spaceLeft := if W < 1 then 1 else W - curLen
    let endIdx :=
      if decide (spaceLeft < chunk.length) then
        match rfindHyphen chunk spaceLeft with
        | some h =>
          if 0 < h ∧ (chunk.take h).any (fun c => !(c == '-')) then h + 1 else spaceLeft
        | none => spaceLeft
      else spaceLeft
    (chunk.drop endIdx :: rest, curLine ++ [chunk.take endIdx])

/-- One iteration body of the `_wrap_chunks` loop after the leading
blank drop: pack greedily, bite an over-wide front chunk, drop a
trailing blank piece; returns the pieces of the line to emit and the
remaining chunks. -/
def wrapStep (W : Nat) (chunks : List Str) : List Str × List Str :=
  let p := packChunks W chunks 0
  let hl :=
    if decide (W < (match p.2.1 with | [] => 0 | r :: _ => r.length)) then
      handleLongWord W p.2.1 p.1 p.2.2
    else (p.2.1, p.1)
  let packed :=
    if (match hl.2.getLast? with | some l => isBlank l | none => false) then
      hl.2.dropLast
    else hl.2
  (packed, hl.1)

/-- Fuelled model of the `_wrap_chunks` loop with default options (both
indents empty, `drop_whitespace` on, no `max_lines`): drop a leading
blank chunk once a line exists, run the packing step, and emit the
joined line if nonempty. -/
def wrapChunksF (W : Nat) : Nat → List Str → List Str → List Str
  | 0, _, lines => lines
  | _ + 1, [], lines => lines
  | fuel + 1, c0 :: rest0, lines =>
    let chunks := if !lines.isEmpty && isBlank c0 then rest0 else c0 :: rest0
    let s := wrapStep W chunks
    let lines := if s.1.isEmpty then lines else lines ++ [s.1.flatten]
    wrapChunksF W fuel s.2 lines

/-- Model of `TextWrapper._wrap_chunks`; the fuel bound covers every
iteration since each one removes a chunk or shortens the front chunk. -/
def wrapChunks (W : Nat) (chunks : List Str) : List Str :=
  wrapChunksF W (chunks.length + (chunks.map List.length).sum + 1) chunks []

/-- Model of `textwrap.wrap(text, width)` with default options. -/
def pyWrap (t : Str) (W : Nat) : List Str := wrapChunks W (splitChunks (mungeWhitespace t))

/-- Model of `_wrap_text` (src/novem/cli/gql.py): wrap each
splitlines-segment to `width` minus the visible prefix width (floored at
20), prefixing every line; an empty segment yields the prefix alone, and
an all-whitespace segment (whose wrap is empty) yields the prefix as
well. -/
def _wrap_text (text pfx : Str) (width : Nat) : List Str :=
  let indentWidth := _visible_len pfx
  let available0 := width - indentWidth
  let available := if available0 < 20 then 20 else available0
  ((pySplitlines text).map fun line =>
    if line.isEmpty then [pfx]
    else
      let wrapped := pyWrap line available
      let wrapped := if wrapped.isEmpty then [[]] else wrapped
      wrapped.map fun wl => pfx ++ wl).flatten

mutual
inductive Comment : Type where
  | mk (message : Str) (deleted edited : Bool) (num_replies likes dislikes : Int)
      (username created : Str) (replies : CommentList)
inductive CommentList : Type where
  | nil : CommentList
  | cons (c : Comment) (rest : CommentList) : CommentList
end

/-- Projection: the comment's message body. -/
def Comment.message : Comment → Str
  | .mk m _ _ _ _ _ _ _ _ => m

/-- Projection: the comment's deleted flag. -/
def Comment.deleted : Comment → Bool
  | .mk _ d _ _ _ _ _ _ _ => d

/-- Projection: the comment's edited flag. -/
def Comment.edited : Comment → Bool
  | .mk _ _ e _ _ _ _ _ _ => e

/-- Projection: the comment's declared reply count. -/
def Comment.num_replies : Comment → Int
  | .mk _ _ _ nr _ _ _ _ _ => nr

/-- Projection: the comment's like count. -/
def Comment.likes : Comment → Int
  | .mk _ _ _ _ l _ _ _ _ => l

/-- Projection: the comment's dislike count. -/
def Comment.dislikes : Comment → Int
  | .mk _ _ _ _ _ d _ _ _ => d

/-- Projection: the creator's username. -/
def Comment.username : Comment → Str
  | .mk _ _ _ _ _ _ u _ _ => u

/-- Projection: the creation timestamp string. -/
def Comment.created : Comment → Str
  | .mk _ _ _ _ _ _ _ c _ => c

/-- Projection: the materialized replies. -/
def Comment.replies : Comment → CommentList
  | .mk _ _ _ _ _ _ _ _ r => r

/-- Emptiness test for a reply sequence (Python `not replies`). -/
def CommentList.isEmpty : CommentList → Bool
  | .nil => true
  | .cons _ _ => false

/-- Model of `_has_truncated_replies` (src/novem/cli/gql.py): true when
some comment has a positive declared reply count but an empty replies
sequence, or recursively some reply subtree does.  The payload's
`replies` null-or-missing cases are the `nil` list, matching the
source's `c.get("replies", []) or []`. -/
def _has_truncated_replies : CommentList → Bool
  | .nil => false
  | .cons (.mk _ _ _ nr _ _ _ _ replies) rest =>
    (decide (0 < nr) && replies.isEmpty) ||
      (!replies.isEmpty && _has_truncated_replies replies) ||
      _has_truncated_replies rest

/-- Model of a Topic payload: the fields `render_topics` and
`fetch_topics_gql` read from the topic dictionary. -/
structure Topic where
  message : Str
  audience : Str
  status : Str
  num_comments : Int
  likes : Int
  dislikes : Int
  edited : Bool
  created : Str
  username : Str
  comments : CommentList

/-- One element of the list the GraphQL response holds under the vis-type
key; the source reads only its `topics` field. -/
structure GqlItem where
  topics : List Topic

/-- The truncation test `fetch_topics_gql` runs across all topics of a
response (`any(_has_truncated_replies(t.get("comments", [])) ...)`). -/
def topicsTruncated (topics : List Topic) : Bool :=
  topics.any fun t => _has_truncated_replies t.comments

/-- Fuelled model of the `while depth <= max_depth` loop of
`fetch_topics_gql`.  The transport collaborator is abstracted as
`respond`, mapping the requested nesting depth to the decoded item list
(the query text is a pure function of the depth, and the other variables
are fixed for the whole call).  The first component of the result records
the depth of every query issued, in order — the loop's observable
interaction with the transport; the second is the returned topic list. -/
def fetchGoF (respond : Nat → List GqlItem) :
    Nat → Nat → Nat → List Topic → List Nat → List Nat × List Topic
  | 0, _, _, topics, log => (log, topics)
  | fuel + 1, depth, maxDepth, topics, log =>
    if depth ≤ maxDepth then
      match respond depth with
      | [] => (log ++ [depth], [])
      | item :: _ =>
        let tps := item.topics
        if topicsTruncated tps then
          fetchGoF respond fuel (depth + 3) maxDepth tps (log ++ [depth])
        else (log ++ [depth], tps)
    else (log, topics)

/-- Model of `fetch_topics_gql` (src/novem/cli/gql.py): start at depth 3,
ceiling 12, step 3; stop early when the resource is missing (empty
result) or no topic is truncated; after the ceiling return the last
fetched topics.  Fuel 5 covers the at most 4 iterations plus the final
bound check. -/
def fetch_topics_gql (respond : Nat → List GqlItem) : List Nat × List Topic :=
  fetchGoF respond 5 3 12 [] []

/-- Modelled from the spec: the color palette `cl` and the `colors()`
initializer live in novem.utils, which is not part of src/.  Sections 2
and 4.1 of the spec describe styling as ANSI color-control sequences
(escape character, bracket, digits and semicolons, terminating m); the
constants below use standard SGR parameter values, and no claim depends
on the specific digits.  `colors()` only initializes the palette and is
modelled as a no-op.  Bold style marker. -/
def BOLD : Str := S "\x1b[1m"

/-- Modelled from the spec: style reset marker of the `cl` palette (see
`BOLD`). -/
def ENDC : Str := S "\x1b[0m"

/-- Modelled from the spec: cyan username color of the `cl` palette (see
`BOLD`). -/
def OKCYAN : Str := S "\x1b[96m"

/-- Modelled from the spec: highlight color of the `cl` palette used for
the caller's own username (see `BOLD`). -/
def WARNING : Str := S "\x1b[93m"

/-- Modelled from the spec: muted gray color of the `cl` palette (see
`BOLD`). -/
def FGGRAY : Str := S "\x1b[38;5;246m"

/-- Decimal digits of a positive number, most significant first. -/
def natReprGo : Nat → Nat → List Char
  | 0, _ => []
  | fuel + 1, n =>
    if n == 0 then [] else natReprGo fuel (n / 10) ++ [Char.ofNat (48 + n % 10)]

/-- Decimal representation of a natural number. -/
def natRepr (n : Nat) : Str := if n == 0 then ['0'] else natReprGo (n + 1) n

/-- Model of Python `str(int)`. -/
def intRepr (i : Int) : Str :=
  if i < 0 then '-' :: natRepr (-i).toNat else natRepr i.toNat

/-- Modelled from the spec: ambient inputs of the renderer.
`parse_api_datetime` lives in novem.utils, which is not part of src/, and
is abstracted as `parseDt`; datetimes are modelled as integral epoch
seconds (section 4.6 computes relative times against the current instant
`now`).  `fmtDate` abstracts the absolute-date formatting
(`strftime` of the month-day-year form) of the datetime library, and
`termCols` the terminal column count that `shutil.get_terminal_size`
reports. -/
structure RenderEnv where
  parseDt : Str → Option Int
  now : Int
  fmtDate : Int → Str
  termCols : Nat

/-- Model of `_relative_time` (src/novem/cli/gql.py); the datetime
arithmetic of the source, on whole seconds, is exactly integer
subtraction and division. -/
def _relative_time (env : RenderEnv) (dt : Int) : Str :=
  let seconds := env.now - dt
  if seconds < 60 then S "just now"
  else
    let minutes := seconds / 60
    if minutes < 60 then intRepr minutes ++ S "m ago"
    else
      let hours := minutes / 60
      if hours < 24 then intRepr hours ++ S "h ago"
      else
        let days := hours / 24
        if days < 30 then intRepr days ++ S "d ago"
        else env.fmtDate dt

/-- Model of `_get_term_width`: terminal width capped at 120. -/
def _get_term_width (env : RenderEnv) : Nat := min 120 env.termCols

/-- Model of Python `sep.join(parts)`. -/
def joinSep (sep : Str) : List Str → Str
  | [] => []
  | [x] => x
  | x :: y :: rest => x ++ sep ++ joinSep sep (y :: rest)

/-- Timestamp string of a comment or topic header: empty when the
created string does not parse, otherwise the relative time. -/
def tsOf (env : RenderEnv) (created : Str) : Str :=
  match env.parseDt created with
  | some dt => _relative_time env dt
  | none => []

/-- Marker segment of a comment header: the applicable markers of
`edited` and `deleted`, comma-joined inside one gray parenthesis pair,
or empty. -/
def markerStr (edited deleted : Bool) : Str :=
  let markers := (if edited then [S "edited"] else []) ++ (if deleted then [S "deleted"] else [])
  if markers.isEmpty then []
  else S " " ++ FGGRAY ++ S "(" ++ joinSep (S ", ") markers ++ S ")" ++ ENDC

/-- Reaction segment of a header: nonzero like/dislike counts inside one
gray bracket pair, or empty. -/
def reactionStr (likes dislikes : Int) : Str :=
  let reactions := (if likes == 0 then [] else [S "+" ++ intRepr likes]) ++
    (if dislikes == 0 then [] else [S "-" ++ intRepr dislikes])
  if reactions.isEmpty then []
  else S " " ++ FGGRAY ++ S "[" ++ joinSep (S " ") reactions ++ S "]" ++ ENDC

mutual
def _render_comment (env : RenderEnv) (me : Str) : Comment → Str → Str → Str → Nat → Str
  | .mk message deleted edited _ likes dislikes username created replies,
      pfx, connector, childPfx, width =>
    let width := if width == 0 then _get_term_width env else width
    let ts := tsOf env created
    let userColor := if !me.isEmpty && username == me then WARNING else OKCYAN
    let header := pfx ++ connector ++ userColor ++ S "@" ++ username ++ ENDC ++
      S " " ++ FGGRAY ++ S "·" ++ ENDC ++ S " " ++ FGGRAY ++ ts ++ ENDC ++
      markerStr edited deleted ++ reactionStr likes dislikes
    let bodyPfx := pfx ++ childPfx
    let bodyLines :=
      if deleted then [bodyPfx ++ FGGRAY ++ S "[deleted]" ++ ENDC]
      else if !message.isEmpty then _wrap_text message bodyPfx width
      else []
    joinSep (S "\n") (header :: (bodyLines ++ renderReplies env me replies bodyPfx width))

def renderReplies (env : RenderEnv) (me : Str) : CommentList → Str → Nat → List Str
  | .nil, _, _ => []
  | .cons r rest, pfx, width =>
    let isLast := rest.isEmpty
    let rc := if isLast then S "└ " else S "├ "
    let rp := if isLast then S "  " else S "│ "
    _render_comment env me r pfx rc rp width :: renderReplies env me rest pfx width
end

/-- Scanner for Python `str.split`, single-character separator newline;
`acc` holds the current segment reversed. -/
def splitNlGo : List Char → List Char → List Str
  | [], acc => [acc.reverse]
  | '\n' :: rest, acc => acc.reverse :: splitNlGo rest []
  | c :: rest, acc => splitNlGo rest (c :: acc)

/-- Model of Python `s.split("\n")`. -/
def splitNl (s : Str) : List Str := splitNlGo s []

/-- Join with newline separators (`"\n".join(lines)`). -/
def joinNl (l : List Str) : Str := joinSep (S "\n") l

/-- True when the first list is an initial run of the second. -/
def leadsWith : Str → Str → Bool
  | [], _ => true
  | _ :: _, [] => false
  | p :: ps, c :: cs => p == c && leadsWith ps cs

/-- Model of Python `s.replace(pat, repl, 1)`: the leftmost occurrence
only. -/
def replaceFirst (pat repl : Str) : Str → Str
  | [] => if leadsWith pat [] then repl else []
  | c :: rest =>
    if leadsWith pat (c :: rest) then repl ++ (c :: rest).drop pat.length
    else c :: replaceFirst pat repl rest

/-- Apply a function to the last element of a list. -/
def mapLast (f : Str → Str) : List Str → List Str
  | [] => []
  | [x] => [f x]
  | x :: y :: rest => x :: mapLast f (y :: rest)

/-- Body of the per-topic loop of `render_topics`: header, wrapped topic
body, comment tree (or the no-comments placeholder), then the closing
transformation that turns the first bold rail glyph of the block's last
line into a corner. -/
def renderTopicBlock (env : RenderEnv) (me : Str) (width : Nat) (topic : Topic) : Str :=
  let ts := tsOf env topic.created
  let tags := (if !topic.audience.isEmpty then [topic.audience] else []) ++
    (if !topic.status.isEmpty && !(topic.status == S "active") then [topic.status] else [])
  let tagStr := if tags.isEmpty then []
    else S " " ++ FGGRAY ++ S "(" ++ joinSep (S ", ") tags ++ S ")" ++ ENDC
  let editedStr := if topic.edited then S " " ++ FGGRAY ++ S "(edited)" ++ ENDC else []
  let commentCount := S " " ++ FGGRAY ++ S "· " ++ intRepr topic.num_comments ++
    S " comment" ++ (if !(topic.num_comments == 1) then S "s" else []) ++ ENDC
  let userColor := if !me.isEmpty && topic.username == me then WARNING else OKCYAN
  let header := BOLD ++ S "┌" ++ ENDC ++ S " " ++ userColor ++ S "@" ++ topic.username ++ ENDC ++
    S " " ++ FGGRAY ++ S "·" ++ ENDC ++ S " " ++ FGGRAY ++ ts ++ ENDC ++
    tagStr ++ editedStr ++ reactionStr topic.likes topic.dislikes ++ commentCount
  let bodyPfx := BOLD ++ S "│" ++ ENDC ++ S " "
  let bodyLines := if !topic.message.isEmpty then _wrap_text topic.message bodyPfx width else []
  let commentLines := renderReplies env me topic.comments bodyPfx width
  let noComments := if topic.comments.isEmpty then
      [BOLD ++ S "└" ++ ENDC ++ S " " ++ FGGRAY ++ S "(no comments)" ++ ENDC]
    else []
  let topicText := joinNl (header :: (bodyLines ++ commentLines ++ noComments))
  let boldPipe := BOLD ++ S "│" ++ ENDC
  let boldCap := BOLD ++ S "└" ++ ENDC
  joinNl (mapLast (replaceFirst boldPipe boldCap) (splitNl topicText))

/-- Model of `render_topics` (src/novem/cli/gql.py): the muted
no-topics line for an empty list, otherwise the topic blocks joined with
a blank line. -/
def render_topics (env : RenderEnv) (topics : List Topic) (me : Str) : Str :=
  if topics.isEmpty then FGGRAY ++ S "No topics" ++ ENDC
  else
    let width := _get_term_width env
    joinSep (S "\n\n") (topics.map fun t => renderTopicBlock env me width t)

/-! Spec-side notions and the claims about the truncation detector. -/

/-- Membership of a comment node anywhere in a comment forest, at any
depth: at the head, in the tail, or inside the head's reply subtree. -/
inductive NodeIn : Comment → CommentList → Prop where
  | head (c : Comment) (rest : CommentList) : NodeIn c (.cons c rest)
  | tail (c d : Comment) (rest : CommentList) : NodeIn c rest → NodeIn c (.cons d rest)
  | child (c d : Comment) (rest : CommentList) : NodeIn c d.replies → NodeIn c (.cons d rest)

theorem nodeIn_not_nil (c : Comment) (cs : CommentList) (h : NodeIn c cs) :
    cs.isEmpty = false := by
  cases h <;> rfl

theorem has_truncated_of_nodeIn (c : Comment) (cs : CommentList) (h : NodeIn c cs)
    (hnr : 0 < c.num_replies) (hrep : c.replies = CommentList.nil) :
    _has_truncated_replies cs = true := by
  induction h with
  | head rest =>
    cases c with
    | mk m d e nr l dl u cr reps =>
      simp only [Comment.num_replies] at hnr
      simp only [Comment.replies] at hrep
      subst hrep
      simp [_has_truncated_replies, CommentList.isEmpty, hnr]
  | tail d rest hin ih =>
    cases d with
    | mk m dd e nr l dl u cr reps =>
      simp [_has_truncated_replies, ih]
  | child d rest hin ih =>
    have hne := nodeIn_not_nil c d.replies hin
    cases d with
    | mk m dd e nr l dl u cr reps =>
      simp only [Comment.replies] at hne ih
      simp [_has_truncated_replies, ih, hne]

theorem nodeIn_of_has_truncated :
    ∀ n (cs : CommentList), sizeOf cs ≤ n → _has_truncated_replies cs = true →
      ∃ c, NodeIn c cs ∧ 0 < c.num_replies ∧ c.replies = CommentList.nil := by
  intro n
  induction n with
  | zero =>
    intro cs hsz
    cases cs with
    | nil => intro h; simp [_has_truncated_replies] at h
    | cons c rest => simp at hsz
  | succ n ih =>
    intro cs hsz htr
    cases cs with
    | nil => simp [_has_truncated_replies] at htr
    | cons c rest =>
      cases c with
      | mk m d e nr l dl u cr reps =>
        simp only [_has_truncated_replies, Bool.or_eq_true, Bool.and_eq_true,
          decide_eq_true_eq, Bool.not_eq_true'] at htr
        rcases htr with (⟨hnr, hempty⟩ | ⟨hne, hrec⟩) | hrest
        · refine ⟨Comment.mk m d e nr l dl u cr reps, NodeIn.head _ _, ?_, ?_⟩
          · simpa [Comment.num_replies] using hnr
          · cases reps with
            | nil => rfl
            | cons _ _ => simp [CommentList.isEmpty] at hempty
        · have hsz' : sizeOf reps ≤ n := by
            simp at hsz; omega
          obtain ⟨w, hw, hn, hr⟩ := ih reps hsz' hrec
          exact ⟨w, NodeIn.child w (Comment.mk m d e nr l dl u cr reps) rest
            (by simpa [Comment.replies] using hw), hn, hr⟩
        · have hsz' : sizeOf rest ≤ n := by
            simp at hsz; omega
          obtain ⟨w, hw, hn, hr⟩ := ih rest hsz' hrest
          exact ⟨w, NodeIn.tail w _ rest hw, hn, hr⟩

/-- C4: `_has_truncated_replies` is true exactly when some comment in the
forest, at any depth, declares a positive reply count while its
materialized replies sequence is empty. -/
theorem has_truncated_replies_iff (cs : CommentList) :
    _has_truncated_replies cs = true ↔
      ∃ c, NodeIn c cs ∧ 0 < c.num_replies ∧ c.replies = CommentList.nil := by
  constructor
  · exact nodeIn_of_has_truncated (sizeOf cs) cs (Nat.le_refl _)
  · rintro ⟨c, hin, hnr, hrep⟩
    exact has_truncated_of_nodeIn c cs hin hnr hrep

/-- C4 witness: the truncation detector at concrete trees — a lone
comment declaring 3 replies with none materialized is truncated, and the
iff instantiates there. -/
theorem has_truncated_replies_iff_witness :
    _has_truncated_replies
        (CommentList.cons (Comment.mk [] false false 3 0 0 [] [] CommentList.nil)
          CommentList.nil) = true := by
  exact (has_truncated_replies_iff _).mpr
    ⟨Comment.mk [] false false 3 0 0 [] [] CommentList.nil, NodeIn.head _ _,
      by decide, rfl⟩

/-! Claims about the ANSI-aware width helper. -/

/-- Decomposition of a styled string: a visible character, or a
color-control sequence rendered as escape, bracket, parameter characters
and a terminating m. -/
inductive StyledPart where
  | vis (c : Char)
  | ctrl (ps : List Char)

/-- Rendering of one styled part into raw characters. -/
def renderPart : StyledPart → Str
  | .vis c => [c]
  | .ctrl ps => '\x1b' :: '[' :: (ps ++ ['m'])

/-- Rendering of a styled-part decomposition. -/
def renderParts (l : List StyledPart) : Str := (l.map renderPart).flatten

/-- Visible characters of a decomposition, in order. -/
def visChars (l : List StyledPart) : List Char :=
  l.filterMap fun p => match p with | .vis c => some c | .ctrl _ => none

/-- Wellformedness of a styled part: a visible character is not the
escape character itself, and control parameters are digits or
semicolons. -/
def partOK : StyledPart → Bool
  | .vis c => !(c == '\x1b')
  | .ctrl ps => ps.all fun c => c.isDigit || c == ';'

theorem stripAnsiF_nil (f : Nat) : stripAnsiF f [] = [] := by
  cases f <;> rfl

theorem trySgr_ctrl (ps rest : List Char) (hps : ∀ c ∈ ps, (c.isDigit || c == ';') = true) :
    trySgr ('[' :: (ps ++ 'm' :: rest)) = some rest := by
  have htw : (ps ++ 'm' :: rest).takeWhile (fun c => c.isDigit || c == ';') = ps := by
    induction ps with
    | nil => simp [List.takeWhile]
    | cons a as ih =>
      have ha := hps a (by simp)
      simp only [List.cons_append, List.takeWhile_cons, ha, if_true]
      rw [ih fun c hc => hps c (by simp [hc])]
  simp only [trySgr, htw]
  have hd : (ps ++ 'm' :: rest).drop ps.length = 'm' :: rest := by
    simpa using List.drop_left ps ('m' :: rest)
  rw [hd]
  rfl

theorem stripAnsiF_renderParts :
    ∀ (parts : List StyledPart) (f : Nat), (renderParts parts).length ≤ f →
      parts.all partOK = true →
      stripAnsiF f (renderParts parts) = visChars parts := by
  intro parts
  induction parts with
  | nil => intro f _ _; simp [renderParts, visChars, stripAnsiF_nil]
  | cons p rest ih =>
    intro f hf hok
    rw [List.all_cons, Bool.and_eq_true] at hok
    cases p with
    | vis c =>
      have hc : c ≠ '\x1b' := by
        have := hok.1
        simpa [partOK] using this
      have hren : renderParts (StyledPart.vis c :: rest) = c :: renderParts rest := by
        simp [renderParts, renderPart]
      rw [hren] at hf ⊢
      cases f with
      | zero => simp at hf
      | succ f =>
        simp only [stripAnsiF, beq_iff_eq, if_neg hc]
        rw [ih f (by simpa using hf) hok.2]
        simp [visChars]
    | ctrl ps =>
      have hps : ∀ c ∈ ps, (c.isDigit || c == ';') = true := by
        have := hok.1
        simpa [partOK, List.all_eq_true] using this
      have hren : renderParts (StyledPart.ctrl ps :: rest) =
          '\x1b' :: '[' :: (ps ++ 'm' :: renderParts rest) := by
        simp [renderParts, renderPart]
      rw [hren] at hf ⊢
      cases f with
      | zero => simp at hf
      | succ f =>
        simp only [stripAnsiF, beq_self_eq_true, if_true]
        rw [trySgr_ctrl ps (renderParts rest) hps]
        show stripAnsiF f (renderParts rest) = visChars (StyledPart.ctrl ps :: rest)
        rw [ih f (by simp at hf; omega) hok.2]
        simp [visChars]

/-- C5: on any string decomposed into visible characters interleaved with
color-control sequences (escape, bracket, digits and semicolons, m),
`_visible_len` counts exactly the visible characters; since the
right-hand side ignores the control parts entirely, inserting any number
of control sequences anywhere never changes the computed width. -/
theorem visible_len_counts_visible (parts : List StyledPart)
    (hok : parts.all partOK = true) :
    _visible_len (renderParts parts) = (visChars parts).length := by
  unfold _visible_len
  rw [stripAnsiF_renderParts parts (renderParts parts).length (Nat.le_refl _) hok]

/-- C5 witness: the decomposition of a cyan-highlighted username between
control sequences has visible width 6, the number of visible
characters. -/
theorem visible_len_counts_visible_witness :
    _visible_len (renderParts ([StyledPart.ctrl (S "96")] ++
        (S "@alice").map StyledPart.vis ++ [StyledPart.ctrl (S "0")])) = 6 := by
  have h := visible_len_counts_visible
    ([StyledPart.ctrl (S "96")] ++ (S "@alice").map StyledPart.vis ++
      [StyledPart.ctrl (S "0")]) (by decide)
  simpa using h

/-! Claims about the fetcher's schedule and error handling, and simple
renderer properties. -/

/-- Topic list of a response: the first (only) matching resource
instance, or empty. -/
def headTopics : List GqlItem → List Topic
  | [] => []
  | item :: _ => item.topics

/-- A response that reports truncation: the resource is present and some
topic's comment tree is truncated. -/
def respTruncated : List GqlItem → Bool
  | [] => false
  | item :: _ => topicsTruncated item.topics

/-- A response that reports completeness: the resource is present and no
topic's comment tree is truncated. -/
def respComplete : List GqlItem → Bool
  | [] => false
  | item :: _ => !topicsTruncated item.topics

theorem joinSep_cons_exists (sep x : Str) (xs : List Str) :
    ∃ suf, joinSep sep (x :: xs) = x ++ suf := by
  cases xs with
  | nil => exact ⟨[], by simp [joinSep]⟩
  | cons y ys => exact ⟨sep ++ joinSep sep (y :: ys), by simp [joinSep]⟩

/-- C7: a response with no matching resource entry makes
`fetch_topics_gql` return the empty topic list after that single request,
and `render_topics` shows the muted no-topics line on an empty topic
list. -/
theorem fetch_not_found_and_render_empty :
    (∀ respond : Nat → List GqlItem, respond 3 = [] →
      fetch_topics_gql respond = ([3], [])) ∧
    (∀ (env : RenderEnv) (me : Str),
      render_topics env [] me = FGGRAY ++ S "No topics" ++ ENDC) := by
  constructor
  · intro respond h
    simp [fetch_topics_gql, fetchGoF, h]
  · intro env me
    simp [render_topics]

/-- C7 witness: a transport with no matching entry yields one depth-3
request and no topics, and the empty render is the no-topics line. -/
theorem fetch_not_found_and_render_empty_witness :
    fetch_topics_gql (fun _ => []) = ([3], []) ∧
      render_topics ⟨fun _ => none, 0, fun _ => [], 80⟩ [] [] =
        FGGRAY ++ S "No topics" ++ ENDC :=
  ⟨fetch_not_found_and_render_empty.1 (fun _ => []) rfl,
    fetch_not_found_and_render_empty.2 ⟨fun _ => none, 0, fun _ => [], 80⟩ []⟩

theorem markerStr_both :
    markerStr true true = S " " ++ FGGRAY ++ S "(edited, deleted)" ++ ENDC := by
  decide

/-- C10: a comment with both flags set renders one combined gray
parenthesized marker, the two words comma-joined in the fixed order
edited then deleted, inside its header line. -/
theorem edited_deleted_combined_marker (env : RenderEnv) (me : Str) (c : Comment)
    (pfx connector childPfx : Str) (width : Nat)
    (he : c.edited = true) (hd : c.deleted = true) :
    ∃ pre suf, _render_comment env me c pfx connector childPfx width =
      pre ++ (S " " ++ FGGRAY ++ S "(edited, deleted)" ++ ENDC) ++ suf := by
  cases c with
  | mk msg del ed nr l dl u cr reps =>
    simp only [Comment.edited] at he
    simp only [Comment.deleted] at hd
    subst he hd
    simp only [_render_comment]
    obtain ⟨suf0, hjoin⟩ := joinSep_cons_exists (S "\n")
      (pfx ++ connector ++ (if !me.isEmpty && u == me then WARNING else OKCYAN) ++
        S "@" ++ u ++ ENDC ++ S " " ++ FGGRAY ++ S "·" ++ ENDC ++ S " " ++ FGGRAY ++
        tsOf env cr ++ ENDC ++ markerStr true true ++ reactionStr l dl) _
    rw [hjoin, markerStr_both]
    refine ⟨pfx ++ connector ++ (if !me.isEmpty && u == me then WARNING else OKCYAN) ++
      S "@" ++ u ++ ENDC ++ S " " ++ FGGRAY ++ S "·" ++ ENDC ++ S " " ++ FGGRAY ++
      tsOf env cr ++ ENDC, reactionStr l dl ++ suf0, ?_⟩
    simp [List.append_assoc]

/-- C10 witness: the combined marker at a concrete edited and deleted
comment. -/
theorem edited_deleted_combined_marker_witness :
    ∃ pre suf,
      _render_comment ⟨fun _ => none, 0, fun _ => [], 80⟩ []
          (Comment.mk (S "hidden") true true 0 0 0 (S "bob") [] CommentList.nil)
          [] (S "└ ") (S "  ") 80 =
        pre ++ (S " " ++ FGGRAY ++ S "(edited, deleted)" ++ ENDC) ++ suf :=
  edited_deleted_combined_marker ⟨fun _ => none, 0, fun _ => [], 80⟩ []
    (Comment.mk (S "hidden") true true 0 0 0 (S "bob") [] CommentList.nil)
    [] (S "└ ") (S "  ") 80 rfl rfl

/-- C1: the fetcher's depth schedule.  First scenario: truncation
reported at depths 3 and 6 and completeness at 9 makes the fetcher issue
exactly the three requests 3, 6, 9 and return the depth-9 topics.
Second scenario: a transport that never reports completeness makes it
issue exactly the four requests 3, 6, 9, 12 and return the depth-12
topics without error. -/
theorem fetch_topics_gql_depth_schedule :
    (∀ respond : Nat → List GqlItem,
      respTruncated (respond 3) = true → respTruncated (respond 6) = true →
      respComplete (respond 9) = true →
      fetch_topics_gql respond = ([3, 6, 9], headTopics (respond 9))) ∧
    (∀ respond : Nat → List GqlItem,
      (∀ d ∈ [3, 6, 9, 12], respTruncated (respond d) = true) →
      fetch_topics_gql respond = ([3, 6, 9, 12], headTopics (respond 12))) := by
  constructor
  · intro respond h3 h6 h9
    rcases hr3 : respond 3 with _ | ⟨i3, rest3⟩
    · rw [hr3] at h3; simp [respTruncated] at h3
    rcases hr6 : respond 6 with _ | ⟨i6, rest6⟩
    · rw [hr6] at h6; simp [respTruncated] at h6
    rcases hr9 : respond 9 with _ | ⟨i9, rest9⟩
    · rw [hr9] at h9; simp [respComplete] at h9
    rw [hr3] at h3; rw [hr6] at h6; rw [hr9] at h9
    simp only [respTruncated] at h3 h6
    simp only [respComplete, Bool.not_eq_true'] at h9
    simp [fetch_topics_gql, fetchGoF, hr3, hr6, hr9, h3, h6, h9, headTopics]
  · intro respond hall
    have h3 := hall 3 (by simp)
    have h6 := hall 6 (by simp)
    have h9 := hall 9 (by simp)
    have h12 := hall 12 (by simp)
    rcases hr3 : respond 3 with _ | ⟨i3, rest3⟩
    · rw [hr3] at h3; simp [respTruncated] at h3
    rcases hr6 : respond 6 with _ | ⟨i6, rest6⟩
    · rw [hr6] at h6; simp [respTruncated] at h6
    rcases hr9 : respond 9 with _ | ⟨i9, rest9⟩
    · rw [hr9] at h9; simp [respTruncated] at h9
    rcases hr12 : respond 12 with _ | ⟨i12, rest12⟩
    · rw [hr12] at h12; simp [respTruncated] at h12
    rw [hr3] at h3; rw [hr6] at h6; rw [hr9] at h9; rw [hr12] at h12
    simp only [respTruncated] at h3 h6 h9 h12
    simp [fetch_topics_gql, fetchGoF, hr3, hr6, hr9, hr12, h3, h6, h9, h12, headTopics]

/-- Topic whose single root comment declares one reply with none
materialized: its tree is truncated. -/
def truncTopic : Topic :=
  ⟨[], [], [], 1, 0, 0, false, [], [],
    CommentList.cons (Comment.mk [] false false 1 0 0 [] [] CommentList.nil)
      CommentList.nil⟩

/-- Topic with a complete (empty) comment tree. -/
def okTopic : Topic := ⟨[], [], [], 0, 0, 0, false, [], [], CommentList.nil⟩

/-- C1 witness: both schedule scenarios instantiated at concrete
transports — one that turns complete at depth 9, one that never does. -/
theorem fetch_topics_gql_depth_schedule_witness :
    fetch_topics_gql (fun d => if d < 9 then [⟨[truncTopic]⟩] else [⟨[okTopic]⟩]) =
        ([3, 6, 9], [okTopic]) ∧
      fetch_topics_gql (fun _ => [⟨[truncTopic]⟩]) = ([3, 6, 9, 12], [truncTopic]) :=
  ⟨fetch_topics_gql_depth_schedule.1
      (fun d => if d < 9 then [⟨[truncTopic]⟩] else [⟨[okTopic]⟩])
      (by decide) (by decide) (by decide),
    fetch_topics_gql_depth_schedule.2 (fun _ => [⟨[truncTopic]⟩]) (by decide)⟩

/-! Structural lemmas about newline splitting, joining and the closing
rail transformation, feeding the renderer claims. -/

theorem joinSep_cons_ne (sep x : Str) (xs : List Str) (h : xs ≠ []) :
    joinSep sep (x :: xs) = x ++ sep ++ joinSep sep xs := by
  cases xs with
  | nil => exact absurd rfl h
  | cons y ys => simp [joinSep]

theorem joinSep_mem_decomp (sep : Str) :
    ∀ (l : List Str) (x : Str), x ∈ l →
      ∃ pre suf, joinSep sep l = pre ++ x ++ suf := by
  intro l
  induction l with
  | nil => intro x hx; simp at hx
  | cons y ys ih =>
    intro x hx
    rcases List.mem_cons.mp hx with hxy | hxs
    · subst hxy
      obtain ⟨suf, hs⟩ := joinSep_cons_exists sep x ys
      exact ⟨[], suf, by simpa using hs⟩
    · have hne : ys ≠ [] := List.ne_nil_of_mem hxs
      obtain ⟨pre, suf, hps⟩ := ih x hxs
      exact ⟨y ++ sep ++ pre, suf, by
        rw [joinSep_cons_ne sep y ys hne, hps]; simp [List.append_assoc]⟩

theorem S_newline : S "\n" = ['\n'] := rfl

theorem splitNlGo_cons (c : Char) (cs acc : List Char) :
    splitNlGo (c :: cs) acc =
      if c = '\n' then acc.reverse :: splitNlGo cs [] else splitNlGo cs (c :: acc) := by
  by_cases h : c = '\n'
  · subst h; simp [splitNlGo]
  · simp [splitNlGo, h]

theorem splitNlGo_ne_nil (x : List Char) (acc : List Char) : splitNlGo x acc ≠ [] := by
  induction x generalizing acc with
  | nil => simp [splitNlGo]
  | cons c cs ih =>
    rw [splitNlGo_cons]
    by_cases h : c = '\n'
    · simp [h]
    · simp [h]; exact ih _

theorem splitNl_ne_nil (x : Str) : splitNl x ≠ [] := splitNlGo_ne_nil x []

theorem splitNlGo_append_nl (x y : List Char) :
    ∀ acc, splitNlGo (x ++ '\n' :: y) acc = splitNlGo x acc ++ splitNl y := by
  induction x with
  | nil => intro acc; simp [splitNlGo, splitNlGo_cons, splitNl]
  | cons c cs ih =>
    intro acc
    by_cases h : c = '\n'
    · subst h
      simp [List.cons_append, splitNlGo_cons, ih]
    · simp only [List.cons_append, splitNlGo_cons, if_neg h, ih]

theorem splitNl_append_nl (x y : Str) :
    splitNl (x ++ '\n' :: y) = splitNl x ++ splitNl y :=
  splitNlGo_append_nl x y []

theorem joinNl_splitNlGo (x : List Char) :
    ∀ acc, joinNl (splitNlGo x acc) = acc.reverse ++ x := by
  induction x with
  | nil => intro acc; simp [splitNlGo, joinNl, joinSep]
  | cons c cs ih =>
    intro acc
    rw [splitNlGo_cons]
    by_cases h : c = '\n'
    · subst h
      rw [if_pos rfl, joinNl, joinSep_cons_ne _ _ _ (splitNlGo_ne_nil cs [])]
      have := ih []
      simp only [joinNl, S_newline] at this
      simp [this, S_newline]
    · rw [if_neg h, ih (c :: acc)]
      simp

theorem joinNl_splitNl (x : Str) : joinNl (splitNl x) = x := by
  simpa using joinNl_splitNlGo x []

theorem mapLast_append (f : Str → Str) (a b : List Str) (hb : b ≠ []) :
    mapLast f (a ++ b) = a ++ mapLast f b := by
  induction a with
  | nil => simp
  | cons x xs ih =>
    cases xs with
    | nil =>
      cases b with
      | nil => exact absurd rfl hb
      | cons y ys => simp [mapLast, ih]
    | cons z zs => simp [mapLast]; simpa using ih

theorem joinSep_append (sep : Str) (a b : List Str) (ha : a ≠ []) (hb : b ≠ []) :
    joinSep sep (a ++ b) = joinSep sep a ++ sep ++ joinSep sep b := by
  induction a with
  | nil => exact absurd rfl ha
  | cons x xs ih =>
    cases xs with
    | nil =>
      cases b with
      | nil => exact absurd rfl hb
      | cons y ys => simp [joinSep, joinSep_cons_ne _ _ _ hb]
    | cons z zs =>
      have hxs : z :: zs ≠ [] := by simp
      rw [List.cons_append, joinSep_cons_ne _ _ _ (by simp : z :: zs ++ b ≠ []),
        joinSep_cons_ne _ _ _ hxs, ih hxs]
      simp [List.append_assoc]

theorem cap_append_nl (f : Str → Str) (x y : Str) :
    joinNl (mapLast f (splitNl (x ++ '\n' :: y))) =
      x ++ '\n' :: joinNl (mapLast f (splitNl y)) := by
  rw [splitNl_append_nl, mapLast_append f _ _ (splitNl_ne_nil y)]
  have hmne : mapLast f (splitNl y) ≠ [] := by
    cases hy : splitNl y with
    | nil => exact absurd hy (splitNl_ne_nil y)
    | cons a as => cases as <;> simp [mapLast]
  rw [joinNl, joinSep_append _ _ _ (splitNl_ne_nil x) hmne]
  have hx := joinNl_splitNl x
  simp only [joinNl, S_newline] at hx
  simp [hx, S_newline, joinNl]

theorem capped_block_eq (f : Str → Str) (hdr : Str) (others : List Str)
    (hne : others ≠ []) :
    joinNl (mapLast f (splitNl (joinNl (hdr :: others)))) =
      hdr ++ '\n' :: joinNl (mapLast f (splitNl (joinNl others))) := by
  have h1 : joinNl (hdr :: others) = hdr ++ '\n' :: joinNl others := by
    rw [joinNl, joinSep_cons_ne _ _ _ hne]
    simp [S_newline, joinNl]
  rw [h1, cap_append_nl]

theorem body_comment_lines_ne_nil (a : List Str) (env : RenderEnv) (me : Str)
    (cs : CommentList) (p : Str) (w : Nat) (nc : Str) :
    a ++ renderReplies env me cs p w ++ (if cs.isEmpty then [nc] else []) ≠ [] := by
  cases cs with
  | nil => simp [CommentList.isEmpty]
  | cons c rest => simp [renderReplies, CommentList.isEmpty]

theorem end_decomp (X CC P tail : Str) (h : CC = P) :
    ∃ pre suf, (X ++ CC) ++ tail = pre ++ P ++ suf :=
  ⟨X, tail, by rw [h, List.append_assoc]⟩

theorem commentCount_eq (n : Int) :
    S " " ++ FGGRAY ++ S "· " ++ intRepr n ++ S " comment" ++
        (if !(n == 1) then S "s" else []) ++ ENDC =
      S " " ++ FGGRAY ++ S "· " ++ intRepr n ++
        (if n = 1 then S " comment" else S " comments") ++ ENDC := by
  by_cases h : n = 1
  · subst h; simp
  · have hb : (n == 1) = false := by simpa using h
    rw [hb, if_neg h]
    have hcat : S " comment" ++ (S "s" ++ ENDC) = S " comments" ++ ENDC := by decide
    simp [hcat]

/-- C9: the trailing comment-count phrase of every rendered topic header
uses the singular form exactly when the topic's comment count equals 1
and the plural form for every other count. -/
theorem comment_count_pluralization (env : RenderEnv) (topics : List Topic) (me : Str)
    (topic : Topic) (hmem : topic ∈ topics) :
    ∃ pre suf, render_topics env topics me =
      pre ++ (S " " ++ FGGRAY ++ S "· " ++ intRepr topic.num_comments ++
        (if topic.num_comments = 1 then S " comment" else S " comments") ++ ENDC) ++ suf := by
  have hne : topics ≠ [] := List.ne_nil_of_mem hmem
  have hie : topics.isEmpty = false := by
    cases topics with
    | nil => exact absurd rfl hne
    | cons t ts => rfl
  have hblock : ∃ pre2 suf2, renderTopicBlock env me (_get_term_width env) topic =
      pre2 ++ (S " " ++ FGGRAY ++ S "· " ++ intRepr topic.num_comments ++
        (if topic.num_comments = 1 then S " comment" else S " comments") ++ ENDC) ++ suf2 := by
    simp only [renderTopicBlock]
    rw [capped_block_eq _ _ _ (body_comment_lines_ne_nil _ env me _ _ _ _)]
    exact end_decomp _ _ _ _ (commentCount_eq topic.num_comments)
  obtain ⟨pre2, suf2, h2⟩ := hblock
  rw [render_topics, hie]
  simp only [Bool.false_eq_true, if_false]
  obtain ⟨pre1, suf1, h1⟩ := joinSep_mem_decomp (S "\n\n")
    (topics.map fun t => renderTopicBlock env me (_get_term_width env) t)
    (renderTopicBlock env me (_get_term_width env) topic)
    (List.mem_map_of_mem _ hmem)
  rw [h2] at h1
  exact ⟨pre1 ++ pre2, suf2 ++ suf1, by rw [h1]; simp [List.append_assoc]⟩

/-- C9 witness: instantiation at a concrete one-topic render. -/
theorem comment_count_pluralization_witness :
    ∃ pre suf, render_topics ⟨fun _ => none, 0, fun _ => [], 80⟩ [okTopic] [] =
      pre ++ (S " " ++ FGGRAY ++ S "· " ++ intRepr okTopic.num_comments ++
        (if okTopic.num_comments = 1 then S " comment" else S " comments") ++ ENDC) ++ suf :=
  comment_count_pluralization ⟨fun _ => none, 0, fun _ => [], 80⟩ [okTopic] []
    okTopic (by simp)

/-! Claim C8: a deleted comment's message is never rendered. -/

mutual
def scrubComment : Comment → Comment
  | .mk msg del ed nr l dl u cr reps =>
    .mk (if del then [] else msg) del ed nr l dl u cr (scrubList reps)
def scrubList : CommentList → CommentList
  | .nil => .nil
  | .cons c rest => .cons (scrubComment c) (scrubList rest)
end

/-- Erasure of the message bodies of all deleted comments of a topic,
keeping everything else. -/
def scrubTopic (t : Topic) : Topic :=
  { t with comments := scrubList t.comments }

theorem scrubList_isEmpty (cs : CommentList) :
    (scrubList cs).isEmpty = cs.isEmpty := by
  cases cs <;> rfl

theorem render_scrub_size :
    ∀ n : Nat,
      (∀ (env : RenderEnv) (me : Str) (c : Comment) (pfx connector childPfx : Str)
        (width : Nat), sizeOf c ≤ n →
        _render_comment env me (scrubComment c) pfx connector childPfx width =
          _render_comment env me c pfx connector childPfx width) ∧
      (∀ (env : RenderEnv) (me : Str) (cs : CommentList) (pfx : Str) (width : Nat),
        sizeOf cs ≤ n →
        renderReplies env me (scrubList cs) pfx width =
          renderReplies env me cs pfx width) := by
  intro n
  induction n with
  | zero =>
    constructor
    · intro env me c _ _ _ _ hsz
      cases c with
      | mk msg del ed nr l dl u cr reps => simp at hsz
    · intro env me cs _ _ hsz
      cases cs with
      | nil => rfl
      | cons c rest => simp at hsz
  | succ n ih =>
    constructor
    · intro env me c pfx connector childPfx width hsz
      cases c with
      | mk msg del ed nr l dl u cr reps =>
        have hreps : sizeOf reps ≤ n := by simp at hsz; omega
        simp only [scrubComment, _render_comment]
        rw [ih.2 env me reps (pfx ++ childPfx) _ hreps]
        cases del
        · simp
        · simp
    · intro env me cs pfx width hsz
      cases cs with
      | nil => rfl
      | cons c rest =>
        have hc : sizeOf c ≤ n := by simp at hsz; omega
        have hr : sizeOf rest ≤ n := by simp at hsz; omega
        simp only [scrubList, renderReplies, scrubList_isEmpty]
        rw [ih.1 env me c pfx _ _ _ hc, ih.2 env me rest pfx _ hr]

theorem render_comment_scrub (env : RenderEnv) (me : Str) (c : Comment)
    (pfx connector childPfx : Str) (width : Nat) :
    _render_comment env me (scrubComment c) pfx connector childPfx width =
      _render_comment env me c pfx connector childPfx width :=
  (render_scrub_size (sizeOf c)).1 env me c pfx connector childPfx width (Nat.le_refl _)

theorem renderReplies_scrub (env : RenderEnv) (me : Str) (cs : CommentList)
    (pfx : Str) (width : Nat) :
    renderReplies env me (scrubList cs) pfx width = renderReplies env me cs pfx width :=
  (render_scrub_size (sizeOf cs)).2 env me cs pfx width (Nat.le_refl _)

theorem renderTopicBlock_scrub (env : RenderEnv) (me : Str) (width : Nat) (t : Topic) :
    renderTopicBlock env me width (scrubTopic t) = renderTopicBlock env me width t := by
  simp only [renderTopicBlock, scrubTopic, renderReplies_scrub, scrubList_isEmpty]

/-- C8: rendered output does not depend on the message bodies of deleted
comments — erasing them all leaves `render_topics` unchanged, so a
deleted comment's original message text never reaches the output — and
a deleted comment renders the fixed gray placeholder line prefixed by
its body indent directly under its header. -/
theorem deleted_message_never_rendered :
    (∀ (env : RenderEnv) (topics : List Topic) (me : Str),
      render_topics env (topics.map scrubTopic) me = render_topics env topics me) ∧
    (∀ (env : RenderEnv) (me : Str) (c : Comment) (pfx connector childPfx : Str)
      (width : Nat), c.deleted = true →
      ∃ hdr rest, _render_comment env me c pfx connector childPfx width =
        hdr ++ '\n' :: ((pfx ++ childPfx) ++ FGGRAY ++ S "[deleted]" ++ ENDC) ++ rest) := by
  constructor
  · intro env topics me
    cases topics with
    | nil => rfl
    | cons t ts =>
      simp only [render_topics, List.map, List.isEmpty]
      simp [List.map_map, Function.comp_def, renderTopicBlock_scrub]
  · intro env me c pfx connector childPfx width hdel
    cases c with
    | mk msg del ed nr l dl u cr reps =>
      simp only [Comment.deleted] at hdel
      subst hdel
      simp only [_render_comment, if_true, List.singleton_append]
      obtain ⟨suf0, hjoin⟩ := joinSep_cons_exists (S "\n")
        ((pfx ++ childPfx) ++ FGGRAY ++ S "[deleted]" ++ ENDC)
        (renderReplies env me reps (pfx ++ childPfx) (if width == 0 then _get_term_width env else width))
      rw [joinSep_cons_ne _ _ _ (by simp : ((pfx ++ childPfx) ++ FGGRAY ++ S "[deleted]" ++ ENDC) ::
        renderReplies env me reps (pfx ++ childPfx) (if width == 0 then _get_term_width env else width) ≠ [])]
      rw [hjoin]
      refine ⟨pfx ++ connector ++ (if !me.isEmpty && u == me then WARNING else OKCYAN) ++
        S "@" ++ u ++ ENDC ++ S " " ++ FGGRAY ++ S "·" ++ ENDC ++ S " " ++ FGGRAY ++
        tsOf env cr ++ ENDC ++ markerStr ed true ++ reactionStr l dl, suf0, ?_⟩
      simp [S_newline, List.append_assoc]

/-- C8 witness: scrub invariance and the placeholder line at a concrete
deleted comment. -/
theorem deleted_message_never_rendered_witness :
    (render_topics ⟨fun _ => none, 0, fun _ => [], 80⟩ ([okTopic].map scrubTopic) [] =
      render_topics ⟨fun _ => none, 0, fun _ => [], 80⟩ [okTopic] []) ∧
    ∃ hdr rest,
      _render_comment ⟨fun _ => none, 0, fun _ => [], 80⟩ []
          (Comment.mk (S "secret") true false 0 0 0 (S "bob") [] CommentList.nil)
          [] (S "└ ") (S "  ") 80 =
        hdr ++ '\n' :: (([] ++ S "  ") ++ FGGRAY ++ S "[deleted]" ++ ENDC) ++ rest :=
  ⟨deleted_message_never_rendered.1 ⟨fun _ => none, 0, fun _ => [], 80⟩ [okTopic] [],
    deleted_message_never_rendered.2 ⟨fun _ => none, 0, fun _ => [], 80⟩ []
      (Comment.mk (S "secret") true false 0 0 0 (S "bob") [] CommentList.nil)
      [] (S "└ ") (S "  ") 80 rfl⟩

/-! Claim C3: empty segments and the trailing-newline behavior of the
line wrapper. -/

theorem splitlinesGo_cons_eq (c : Char) (cs : List Char) (acc : List Char) :
    splitlinesGo (c :: cs) acc =
      if c = '\r' ∧ cs.head? = some '\n' then acc.reverse :: splitlinesGo cs.tail []
      else if lineBreakChar c then acc.reverse :: splitlinesGo cs []
      else splitlinesGo cs (c :: acc) := by
  cases cs with
  | nil => simp [splitlinesGo]
  | cons d ds =>
    by_cases hrn : c = '\r' ∧ d = '\n'
    · obtain ⟨hc, hd⟩ := hrn
      subst hc; subst hd
      simp [splitlinesGo]
    · rw [splitlinesGo, if_neg hrn]
      have h1 : ¬(c = '\r' ∧ (d :: ds).head? = some '\n') := by simpa using hrn
      rw [if_neg h1]

theorem lineBreakChar_nl : lineBreakChar '\n' = true := rfl

theorem splitlines_nn_aux : ∀ n : Nat, ∀ (u acc : List Char), u.length ≤ n →
    splitlinesGo (u ++ ['\n', '\n']) acc = splitlinesGo (u ++ ['\n']) acc ++ [[]] := by
  intro n
  induction n with
  | zero =>
    intro u acc hu
    have hnil : u = [] := List.eq_nil_of_length_eq_zero (Nat.le_zero.mp hu)
    subst hnil
    simp [splitlinesGo_cons_eq, splitlinesGo, lineBreakChar]
  | succ n ih =>
    intro u acc hu
    cases u with
    | nil => simp [splitlinesGo_cons_eq, splitlinesGo, lineBreakChar]
    | cons d u' =>
      cases u' with
      | nil =>
        by_cases hd : d = '\r'
        · subst hd
          simp [splitlinesGo_cons_eq, splitlinesGo, lineBreakChar]
        · by_cases hb : lineBreakChar d
          · simp [splitlinesGo_cons_eq, splitlinesGo, hd, hb, lineBreakChar_nl,
              show ¬(('\n' : Char) = '\r') from by decide]
          · simp [splitlinesGo_cons_eq, splitlinesGo, hd, hb, lineBreakChar_nl,
              show ¬(('\n' : Char) = '\r') from by decide]
      | cons e u'' =>
        have h2 : u''.length ≤ n := by simp at hu; omega
        have h1 : (e :: u'').length ≤ n := by simp at hu ⊢; omega
        simp only [List.cons_append]
        rw [splitlinesGo_cons_eq d (e :: (u'' ++ ['\n', '\n'])) acc,
          splitlinesGo_cons_eq d (e :: (u'' ++ ['\n'])) acc]
        simp only [List.head?_cons, Option.some.injEq, List.tail_cons]
        by_cases hcond : d = '\r' ∧ e = '\n'
        · rw [if_pos hcond, if_pos hcond, ih u'' [] h2]
          simp
        · rw [if_neg hcond, if_neg hcond]
          by_cases hb : lineBreakChar d
          · rw [if_pos hb, if_pos hb]
            have ih1 := ih (e :: u'') [] h1
            simp only [List.cons_append] at ih1
            rw [ih1]
            simp
          · rw [if_neg hb, if_neg hb]
            have ih1 := ih (e :: u'') (d :: acc) h1
            simp only [List.cons_append] at ih1
            rw [ih1]

theorem splitlines_tail_aux : ∀ n : Nat, ∀ (u : List Char) (c : Char) (acc : List Char),
    lineBreakChar c = false → u.length ≤ n →
    splitlinesGo (u ++ [c, '\n']) acc = splitlinesGo (u ++ [c]) acc := by
  intro n
  induction n with
  | zero =>
    intro u c acc hc hu
    have hnil : u = [] := List.eq_nil_of_length_eq_zero (Nat.le_zero.mp hu)
    subst hnil
    have hcr : ¬(c = '\r') := by
      intro h; subst h; simp [lineBreakChar] at hc
    simp [splitlinesGo, hc, hcr, lineBreakChar_nl]
  | succ n ih =>
    intro u c acc hc hu
    cases u with
    | nil =>
      have hcr : ¬(c = '\r') := by
        intro h; subst h; simp [lineBreakChar] at hc
      simp [splitlinesGo, hc, hcr, lineBreakChar_nl]
    | cons d u' =>
      have h1 : u'.length ≤ n := by simp at hu; omega
      simp only [List.cons_append]
      rw [splitlinesGo_cons_eq d (u' ++ [c, '\n']) acc,
        splitlinesGo_cons_eq d (u' ++ [c]) acc]
      have hheads : (u' ++ [c, '\n']).head? = (u' ++ [c]).head? := by
        cases u' <;> simp
      rw [hheads]
      by_cases hcond : d = '\r' ∧ (u' ++ [c]).head? = some '\n'
      · obtain ⟨hd, hhd⟩ := hcond
        rw [if_pos ⟨hd, hhd⟩, if_pos ⟨hd, hhd⟩]
        cases u' with
        | nil =>
          simp only [List.nil_append, List.head?_cons, Option.some.injEq] at hhd
          subst hhd
          simp [lineBreakChar] at hc
        | cons e u'' =>
          have h2 : u''.length ≤ n := by simp at hu; omega
          simp only [List.cons_append, List.tail_cons]
          rw [ih u'' c [] hc h2]
      · rw [if_neg hcond, if_neg hcond]
        by_cases hb : lineBreakChar d
        · rw [if_pos hb, if_pos hb, ih u' c [] hc h1]
        · rw [if_neg hb, if_neg hb, ih u' c (d :: acc) hc h1]

theorem pySplitlines_nn (u : Str) :
    pySplitlines (u ++ ['\n', '\n']) = pySplitlines (u ++ ['\n']) ++ [[]] :=
  splitlines_nn_aux u.length u [] (Nat.le_refl _)

theorem pySplitlines_tail (u : Str) (c : Char) (hc : lineBreakChar c = false) :
    pySplitlines (u ++ [c, '\n']) = pySplitlines (u ++ [c]) :=
  splitlines_tail_aux u.length u c [] hc (Nat.le_refl _)

set_option maxRecDepth 4000

/-! Claim C2: word breaking behavior of the wrapper on over-long
words. -/

/-- C2 counterexample: the wrapper does break inside a word — a single
25-character word at usable width 20 is split into a 20-character piece
and a 5-character piece instead of being emitted on its own line
unsplit. -/
theorem wrap_text_splits_long_word_cex :
    _wrap_text (List.replicate 25 'a') [] 20 =
        [List.replicate 20 'a', List.replicate 5 'a'] ∧
      ¬ List.replicate 25 'a' ∈ _wrap_text (List.replicate 25 'a') [] 20 := by
  decide

/-- Successive pieces of at most `k` characters cut from the front of a
list (fuelled; fuel at least the length is exact). -/
def chunksOfF : Nat → Nat → List Char → List (List Char)
  | 0, _, l => if l.isEmpty then [] else [l]
  | _ + 1, _, [] => []
  | f + 1, k, c :: cs => (c :: cs).take k :: chunksOfF f k ((c :: cs).drop k)

/-- Division of a word into its wrap pieces: front chunks of exactly
`k` characters and a final shorter remainder. -/
def chunksOf (k : Nat) (l : List Char) : List (List Char) := chunksOfF l.length k l

theorem chunksOfF_congr : ∀ f g k l, 1 ≤ k → l.length ≤ f → l.length ≤ g →
    chunksOfF f k l = chunksOfF g k l := by
  intro f
  induction f with
  | zero =>
    intro g k l hk hf hg
    have : l = [] := List.eq_nil_of_length_eq_zero (Nat.le_zero.mp hf)
    subst this
    cases g <;> simp [chunksOfF]
  | succ f ih =>
    intro g k l hk hf hg
    cases l with
    | nil => cases g <;> simp [chunksOfF]
    | cons c cs =>
      cases g with
      | zero => simp at hg
      | succ g =>
        simp only [chunksOfF]
        rw [ih g k ((c :: cs).drop k) hk]
        · simp only [List.length_drop, List.length_cons]
          simp only [List.length_cons] at hf
          omega
        · simp only [List.length_drop, List.length_cons]
          simp only [List.length_cons] at hg
          omega

theorem chunksOf_le (k : Nat) (l : List Char) (hne : l ≠ []) (hk : l.length ≤ k) :
    chunksOf k l = [l] := by
  cases l with
  | nil => exact absurd rfl hne
  | cons c cs =>
    simp only [chunksOf, List.length_cons, chunksOfF]
    rw [List.take_of_length_le (by simpa using hk), List.drop_of_length_le (by simpa using hk)]
    cases cs <;> simp [chunksOfF]

theorem chunksOf_step (k : Nat) (l : List Char) (hk : 1 ≤ k) (hl : k < l.length) :
    chunksOf k l = l.take k :: chunksOf k (l.drop k) := by
  cases l with
  | nil => simp at hl
  | cons c cs =>
    simp only [chunksOf, List.length_cons, chunksOfF]
    congr 1
    apply chunksOfF_congr
    · exact hk
    · simp only [List.length_drop, List.length_cons]
      omega
    · exact Nat.le_refl _

theorem chunksOf_ne_nil (k : Nat) (l : List Char) (hne : l ≠ []) :
    chunksOf k l ≠ [] := by
  cases l with
  | nil => exact absurd rfl hne
  | cons c cs => simp [chunksOf, chunksOfF]

theorem not_ws_of_not_strSpace (c : Char) (h : pyStrSpace c = false) : wsChar c = false := by
  cases hw : wsChar c with
  | false => rfl
  | true =>
    exfalso
    simp only [wsChar, Bool.or_eq_true, beq_iff_eq] at hw
    rcases hw with ((((h1 | h1) | h1) | h1) | h1) | h1 <;> subst h1 <;>
      exact absurd h (by decide)

theorem not_lb_of_not_strSpace (c : Char) (h : pyStrSpace c = false) :
    lineBreakChar c = false := by
  cases hl : lineBreakChar c with
  | false => rfl
  | true =>
    exfalso
    simp only [lineBreakChar, Bool.or_eq_true, beq_iff_eq] at hl
    rcases hl with ((((((((h1 | h1) | h1) | h1) | h1) | h1) | h1) | h1) | h1) | h1
    · subst h1; exact absurd h (by decide)
    · subst h1; exact absurd h (by decide)
    · subst h1; exact absurd h (by decide)
    · subst h1; exact absurd h (by decide)
    · subst h1; exact absurd h (by decide)
    · subst h1; exact absurd h (by decide)
    · subst h1; exact absurd h (by decide)
    · subst h1; exact absurd h (by decide)
    · simp [pyStrSpace, h1] at h
    · simp [pyStrSpace, h1] at h

theorem expandTabsGo_id (w : List Char) (h : ∀ c ∈ w, wsChar c = false) :
    ∀ col, expandTabsGo w col = w := by
  induction w with
  | nil => intro col; rfl
  | cons c cs ih =>
    intro col
    have hc := h c (by simp)
    simp only [wsChar, Bool.or_eq_false_iff, beq_eq_false_iff_ne, ne_eq] at hc
    simp only [expandTabsGo, beq_iff_eq, if_neg hc.1.1.1.1.1,
      if_neg (by simp [hc.1.1.1.1.2, hc.1.2] : ¬(c == '\n' || c == '\r') = true)]
    rw [ih (fun d hd => h d (by simp [hd])) (col + 1)]

theorem mungeWhitespace_id (w : List Char) (h : ∀ c ∈ w, wsChar c = false) :
    mungeWhitespace w = w := by
  rw [mungeWhitespace, expandTabsGo_id w h 0]
  induction w with
  | nil => rfl
  | cons c cs ih =>
    simp only [List.map_cons, if_neg (by simp [h c (by simp)] : ¬wsChar c = true)]
    rw [ih (fun d hd => h d (by simp [hd]))]

theorem b3go_word : ∀ (rem cons before : List Char),
    (∀ c ∈ rem, wsChar c = false ∧ ¬c = '-') →
    b3go before cons rem = (cons.reverse ++ rem, []) := by
  intro rem
  induction rem with
  | nil => intro cons before _; simp [b3go]
  | cons r rs ih =>
    intro cons before h
    have hr := h r (by simp)
    rw [b3go]
    rw [if_neg (by simp [hr.2]), if_neg (by simp [hr.1])]
    rw [if_neg ?_]
    · rw [ih (r :: cons) before fun c hc => h c (by simp [hc])]
      simp
    · simp only [List.takeWhile_cons, beq_iff_eq, if_neg hr.2, Bool.and_eq_true]
      rintro ⟨-, habs, -⟩
      simp at habs

theorem splitChunks_word (w : List Char) (hne : w ≠ [])
    (h : ∀ c ∈ w, wsChar c = false ∧ ¬c = '-') : splitChunks w = [w] := by
  cases w with
  | nil => exact absurd rfl hne
  | cons c cs =>
    have hc := h c (by simp)
    simp only [splitChunks, List.length_cons, splitChunksF]
    rw [if_neg (by simp [hc.1])]
    rw [if_neg ?_]
    · rw [b3go_word cs [c] [] fun d hd => h d (by simp [hd])]
      simp only [List.reverse_cons, List.reverse_nil, List.nil_append, List.singleton_append]
      rfl
    · intro hcond
      simp [List.head?_nil] at hcond

theorem packChunks_single_le (W : Nat) (w : Str) (h : w.length ≤ W) :
    packChunks W [w] 0 = ([w], [], w.length) := by
  simp [packChunks, h]

theorem packChunks_single_gt (W : Nat) (w : Str) (h : W < w.length) :
    packChunks W [w] 0 = ([], [w], 0) := by
  simp [packChunks, Nat.not_le.mpr (by simpa using h)]

theorem lastHyphenIdx_none (l : List Char) (h : ∀ c ∈ l, ¬c = '-') :
    lastHyphenIdx l = none := by
  induction l with
  | nil => rfl
  | cons c cs ih =>
    rw [lastHyphenIdx, ih fun d hd => h d (by simp [hd])]
    simp [h c (by simp)]

theorem handleLong_word (W : Nat) (w : Str) (hW : 1 ≤ W) (hlen : W < w.length)
    (hnh : ∀ c ∈ w, ¬c = '-') :
    handleLongWord W [w] [] 0 = ([w.drop W], [w.take W]) := by
  have hfind : rfindHyphen w W = none :=
    lastHyphenIdx_none _ fun c hc => hnh c (List.take_subset W w hc)
  simp [handleLongWord, Nat.not_lt.mpr hW, hfind, hlen]

theorem wrapChunksF_nil (W f : Nat) (lines : List Str) :
    wrapChunksF W f [] lines = lines := by
  cases f <;> rfl

theorem getLast?_single (x : Str) : [x].getLast? = some x := rfl

theorem wrapStep_single_le (W : Nat) (w : Str) (hle : w.length ≤ W)
    (hblank : isBlank w = false) : wrapStep W [w] = ([w], []) := by
  simp only [wrapStep, packChunks_single_le W w hle]
  simp [getLast?_single, hblank]

theorem isBlank_false (w : Str) (hne : w ≠ []) (h : ∀ c ∈ w, pyStrSpace c = false) :
    isBlank w = false := by
  cases w with
  | nil => exact absurd rfl hne
  | cons c cs => simp [isBlank, h c (by simp)]

theorem wrapStep_single_gt (W : Nat) (w : Str) (hW : 1 ≤ W) (hgt : W < w.length)
    (hnh : ∀ c ∈ w, ¬c = '-') (htb : isBlank (w.take W) = false) :
    wrapStep W [w] = ([w.take W], [w.drop W]) := by
  simp only [wrapStep, packChunks_single_gt W w hgt]
  simp [hgt, handleLong_word W w hW hgt hnh, getLast?_single, htb]

theorem wrapChunks_long : ∀ (f : Nat) (w : List Char) (lines : List Str) (W : Nat),
    1 ≤ W → (∀ c ∈ w, pyStrSpace c = false ∧ ¬c = '-') → w ≠ [] → w.length ≤ f →
    wrapChunksF W f [w] lines = lines ++ chunksOf W w := by
  intro f
  induction f with
  | zero =>
    intro w lines W _ _ hne hlen
    exact absurd (List.eq_nil_of_length_eq_zero (Nat.le_zero.mp hlen)) hne
  | succ f ih =>
    intro w lines W hW hgood hne hlen
    cases w with
    | nil => exact absurd rfl hne
    | cons c cs =>
      have hblank : isBlank (c :: cs) = false :=
        isBlank_false _ (by simp) fun d hd => (hgood d hd).1
      simp only [wrapChunksF, hblank, Bool.and_false, Bool.false_eq_true, if_false]
      by_cases hle : (c :: cs).length ≤ W
      · rw [wrapStep_single_le W (c :: cs) hle hblank]
        simp [wrapChunksF_nil, chunksOf_le W (c :: cs) (by simp : c :: cs ≠ []) hle]
      · have hgt : W < (c :: cs).length := Nat.lt_of_not_le hle
        have htake_ne : (c :: cs).take W ≠ [] := by
          cases W with
          | zero => omega
          | succ W' => simp
        have htake_blank : isBlank ((c :: cs).take W) = false :=
          isBlank_false _ htake_ne fun d hd => (hgood d (List.take_subset W _ hd)).1
        rw [wrapStep_single_gt W (c :: cs) hW hgt (fun d hd => (hgood d hd).2) htake_blank]
        simp only [List.flatten_cons, List.flatten_nil, List.append_nil]
        rw [if_neg (by simp)]
        have hgt' : W < cs.length + 1 := by simpa using hgt
        have hdrop_ne : (c :: cs).drop W ≠ [] := by
          have hld : ((c :: cs).drop W).length = (c :: cs).length - W := List.length_drop W _
          intro habs
          rw [habs] at hld
          simp only [List.length_nil, List.length_cons] at hld
          omega
        have hdlen : ((c :: cs).drop W).length ≤ f := by
          rw [List.length_drop]
          simp only [List.length_cons] at hlen ⊢
          omega
        rw [ih ((c :: cs).drop W) (lines ++ [((c :: cs).take W)]) W hW
          (fun d hd => hgood d (List.drop_subset W _ hd)) hdrop_ne hdlen]
        rw [chunksOf_step W (c :: cs) hW hgt]
        simp

theorem splitlinesGo_word : ∀ (w acc : List Char), (∀ c ∈ w, lineBreakChar c = false) →
    splitlinesGo w acc =
      if (acc.reverse ++ w).isEmpty then [] else [acc.reverse ++ w] := by
  intro w
  induction w with
  | nil =>
    intro acc _
    simp [splitlinesGo]
  | cons c cs ih =>
    intro acc h
    have hc := h c (by simp)
    have hcr : ¬(c = '\r') := by
      intro habs; subst habs; simp [lineBreakChar] at hc
    rw [splitlinesGo_cons_eq, if_neg (by simp [hcr]), if_neg (by simp [hc])]
    rw [ih (c :: acc) fun d hd => h d (by simp [hd])]
    simp

theorem pySplitlines_word (w : Str) (hne : w ≠ [])
    (h : ∀ c ∈ w, lineBreakChar c = false) : pySplitlines w = [w] := by
  rw [pySplitlines, splitlinesGo_word w [] h]
  simp [hne]

theorem pyWrap_long_word (w : Str) (W : Nat) (hW : 1 ≤ W)
    (hgood : ∀ c ∈ w, pyStrSpace c = false ∧ ¬c = '-') (hne : w ≠ []) :
    pyWrap w W = chunksOf W w := by
  have hws : ∀ c ∈ w, wsChar c = false ∧ ¬c = '-' :=
    fun c hc => ⟨not_ws_of_not_strSpace c (hgood c hc).1, (hgood c hc).2⟩
  rw [pyWrap, mungeWhitespace_id w fun c hc => (hws c hc).1, splitChunks_word w hne hws,
    wrapChunks]
  rw [wrapChunks_long _ w [] W hW hgood hne (by simp ; omega)]
  rfl

/-- C2 amended: on a text that is a single word (no whitespace, no
hyphens) the wrapper never breaks the word when it fits — a word of
length at most the usable wrap width is emitted unsplit on one prefixed
line — but a word whose length exceeds the usable width is not emitted
on its own line unsplit: the output is the word cut at the usable-width
boundary into successive pieces of exactly the usable width with the
shorter remainder last, each piece on its own prefixed line. -/
theorem wrap_text_long_word_chunks (w pfx : Str) (width available : Nat)
    (havail : available =
      if width - _visible_len pfx < 20 then 20 else width - _visible_len pfx)
    (hgood : ∀ c ∈ w, pyStrSpace c = false ∧ ¬c = '-') (hne : w ≠ []) :
    (w.length ≤ available → _wrap_text w pfx width = [pfx ++ w]) ∧
    (available < w.length →
      _wrap_text w pfx width = (chunksOf available w).map fun piece => pfx ++ piece) := by
  have hW : 1 ≤ available := by
    rw [havail]; split <;> omega
  have hlb : ∀ c ∈ w, lineBreakChar c = false :=
    fun c hc => not_lb_of_not_strSpace c (hgood c hc).1
  have hmain :
      _wrap_text w pfx width = (chunksOf available w).map fun piece => pfx ++ piece := by
    simp only [_wrap_text, ← havail]
    rw [pySplitlines_word w hne hlb]
    simp only [List.map_cons, List.map_nil, List.flatten_cons, List.flatten_nil,
      List.append_nil]
    rw [if_neg (by simpa using hne)]
    rw [pyWrap_long_word w available hW hgood hne]
    rw [if_neg (by simpa using chunksOf_ne_nil available w hne)]
  refine ⟨?_, fun _ => hmain⟩
  intro hle
  rw [hmain, chunksOf_le available w hne hle]
  simp

/-- C2 witness: both conjuncts of the amended statement — a 3-character
word at usable width 38 stays whole on one prefixed line, and the
25-character word at usable width 20 is cut into a 20-character piece
and the 5-character remainder. -/
theorem wrap_text_long_word_chunks_witness :
    _wrap_text (S "abc") (S "> ") 40 = [S "> " ++ S "abc"] ∧
    _wrap_text (List.replicate 25 'a') [] 20 =
      (chunksOf 20 (List.replicate 25 'a')).map fun piece => [] ++ piece :=
  ⟨(wrap_text_long_word_chunks (S "abc") (S "> ") 40 38 (by decide) (by decide)
      (by decide)).1 (by decide),
    (wrap_text_long_word_chunks (List.replicate 25 'a') [] 20 20 (by decide)
      (by decide) (by decide)).2 (by decide)⟩

/-! Claim C6: every wrapped line fits within the usable width. -/

/-- Total character count of a list of pieces. -/
def sumLen (l : List Str) : Nat := (l.map List.length).sum

theorem packChunks_spec (W : Nat) : ∀ (cs : List Str) (cur : Nat), cur ≤ W →
    sumLen (packChunks W cs cur).1 + cur = (packChunks W cs cur).2.2 ∧
      (packChunks W cs cur).2.2 ≤ W := by
  intro cs
  induction cs with
  | nil => intro cur hcur; simp [packChunks, sumLen, hcur]
  | cons c cs ih =>
    intro cur hcur
    by_cases h : cur + c.length ≤ W
    · simp only [packChunks, if_pos h]
      obtain ⟨h1, h2⟩ := ih (cur + c.length) h
      constructor
      · simp only [sumLen, List.map_cons, List.sum_cons]
        simp only [sumLen] at h1
        omega
      · exact h2
    · simp only [packChunks, if_neg h]
      simp [sumLen, hcur]

theorem lastHyphenIdx_lt : ∀ (l : List Char) (j : Nat),
    lastHyphenIdx l = some j → j < l.length := by
  intro l
  induction l with
  | nil => intro j h; simp [lastHyphenIdx] at h
  | cons c cs ih =>
    intro j h
    rw [lastHyphenIdx] at h
    cases hrec : lastHyphenIdx cs with
    | some k =>
      rw [hrec] at h
      simp only [Option.some.injEq] at h
      have := ih k hrec
      simp only [List.length_cons]
      omega
    | none =>
      rw [hrec] at h
      by_cases hc : (c == '-') = true
      · rw [if_pos hc] at h
        simp only [Option.some.injEq] at h
        simp [← h]
      · rw [if_neg hc] at h
        exact absurd h (by simp)

theorem handleLongWord_sum (W : Nat) (chunks curLine : List Str) (curLen : Nat)
    (hW : 1 ≤ W) (hcur : curLen ≤ W) (hsum : sumLen curLine = curLen) :
    sumLen (handleLongWord W chunks curLine curLen).2 ≤ W := by
  cases chunks with
  | nil => simpa [handleLongWord, hsum] using hcur
  | cons chunk rest =>
    have hsl : (if W < 1 then 1 else W - curLen) = W - curLen := by
      rw [if_neg (by omega)]
    simp only [handleLongWord, hsl]
    have key : ∀ e : Nat, e ≤ W - curLen → sumLen (curLine ++ [chunk.take e]) ≤ W := by
      intro e he
      simp only [sumLen, List.map_append, List.sum_append, List.map_cons, List.sum_cons,
        List.map_nil, List.sum_nil]
      simp only [sumLen] at hsum
      have hte : (chunk.take e).length ≤ e := by simp [List.length_take]
      omega
    apply key
    split
    · cases hfind : rfindHyphen chunk (W - curLen) with
      | some h =>
        have hlt := lastHyphenIdx_lt _ h hfind
        have htl : (chunk.take (W - curLen)).length ≤ W - curLen := by
          simp [List.length_take]
        show (if 0 < h ∧ ((chunk.take h).any fun c => !(c == '-')) = true then h + 1
          else W - curLen) ≤ W - curLen
        split
        · omega
        · exact Nat.le_refl _
      | none =>
        exact Nat.le_refl _
    · exact Nat.le_refl _

theorem sum_dropLast_le (l : List Str) : sumLen l.dropLast ≤ sumLen l := by
  induction l with
  | nil => exact Nat.le_refl _
  | cons x xs ih =>
    cases xs with
    | nil => simp [sumLen]
    | cons y ys =>
      rw [List.dropLast_cons_of_ne_nil (by simp : y :: ys ≠ [])]
      simp only [sumLen, List.map_cons, List.sum_cons] at ih ⊢
      omega

theorem wrapStep_sum (W : Nat) (chunks : List Str) (hW : 1 ≤ W) :
    sumLen (wrapStep W chunks).1 ≤ W := by
  simp only [wrapStep]
  obtain ⟨hp1, hp2⟩ := packChunks_spec W chunks 0 (by omega)
  set p := packChunks W chunks 0 with hp
  have hbase : sumLen (if decide (W < (match p.2.1 with | [] => 0 | r :: _ => r.length)) = true
      then handleLongWord W p.2.1 p.1 p.2.2 else (p.2.1, p.1)).2 ≤ W := by
    split
    · exact handleLongWord_sum W p.2.1 p.1 p.2.2 hW hp2 (by omega)
    · simp only []
      omega
  have hfinal : ∀ q : List Str × List Str, sumLen q.2 ≤ W →
      sumLen (if (match q.2.getLast? with | some l => isBlank l | none => false) then
        q.2.dropLast else q.2) ≤ W := by
    intro q hq
    split
    · exact Nat.le_trans (sum_dropLast_le _) hq
    · exact hq
  exact hfinal _ hbase

theorem mem_lines_ext {W : Nat} (lines : List Str) (s1 : List Str)
    (h : ∀ l ∈ lines, l.length ≤ W) (hs : s1.flatten.length ≤ W) :
    ∀ l ∈ (if s1.isEmpty then lines else lines ++ [s1.flatten]), l.length ≤ W := by
  intro l hl
  split at hl
  · exact h l hl
  · rcases List.mem_append.mp hl with hm | hm
    · exact h l hm
    · have : l = s1.flatten := by simpa using hm
      subst this
      exact hs

theorem wrapChunksF_width_le (W : Nat) (hW : 1 ≤ W) :
    ∀ (f : Nat) (chunks lines : List Str), (∀ l ∈ lines, l.length ≤ W) →
    ∀ l ∈ wrapChunksF W f chunks lines, l.length ≤ W := by
  intro f
  induction f with
  | zero => intro chunks lines h; simpa [wrapChunksF] using h
  | succ f ih =>
    intro chunks lines h
    cases chunks with
    | nil => simpa [wrapChunksF] using h
    | cons c0 rest0 =>
      simp only [wrapChunksF]
      apply ih
      apply mem_lines_ext _ _ h
      rw [List.length_flatten]
      exact wrapStep_sum W _ hW

theorem pyWrap_width_le (seg : Str) (W : Nat) (hW : 1 ≤ W) (wl : Str)
    (hm : wl ∈ pyWrap seg W) : wl.length ≤ W := by
  exact wrapChunksF_width_le W hW _ _ [] (by simp) wl hm


theorem trySgr_shorter (l rem : List Char) (h : trySgr l = some rem) :
    rem.length < l.length := by
  rw [trySgr.eq_def] at h
  split at h
  · rename_i rest
    simp only [] at h
    split at h
    · rename_i rem' heq
      injection h with h
      subst h
      have hlen := congrArg List.length heq
      simp only [List.length_drop, List.length_cons] at hlen
      simp only [List.length_cons]
      omega
    · exact absurd h (by simp)
  · exact absurd h (by simp)

theorem stripAnsiF_length_le : ∀ (f : Nat) (l : List Char),
    (stripAnsiF f l).length ≤ l.length := by
  intro f
  induction f with
  | zero => intro l; exact Nat.le_refl _
  | succ f ih =>
    intro l
    cases l with
    | nil => simp [stripAnsiF]
    | cons c rest =>
      simp only [stripAnsiF]
      by_cases hc : (c == '\x1b') = true
      · rw [if_pos hc]
        cases ht : trySgr rest with
        | some rem =>
          have hlt : rem.length < rest.length := trySgr_shorter rest rem ht
          calc (stripAnsiF f rem).length ≤ rem.length := ih rem
            _ ≤ (c :: rest).length := by simp; omega
        | none =>
          simpa using Nat.succ_le_succ (ih rest)
      · rw [if_neg hc]
        simpa using Nat.succ_le_succ (ih rest)

theorem visible_len_le_length (s : Str) : _visible_len s ≤ s.length :=
  stripAnsiF_length_le s.length s

/-- C6: every line produced by the wrapper, after stripping the prefix,
has visible width at most the usable width, which is the target width
minus the prefix's visible width floored at 20 columns. -/
theorem wrap_text_visible_width_le (text pfx : Str) (width : Nat) (line : Str)
    (hmem : line ∈ _wrap_text text pfx width) :
    _visible_len (line.drop pfx.length) ≤ max (width - _visible_len pfx) 20 := by
  have havail : (if width - _visible_len pfx < 20 then 20 else width - _visible_len pfx) =
      max (width - _visible_len pfx) 20 := by
    split <;> omega
  have hA20 : 20 ≤ (if width - _visible_len pfx < 20 then 20
      else width - _visible_len pfx) := by
    split <;> omega
  simp only [_wrap_text, havail] at hmem
  rw [List.mem_flatten] at hmem
  obtain ⟨bl, hbl, hline⟩ := hmem
  rw [List.mem_map] at hbl
  obtain ⟨seg, hseg, hblval⟩ := hbl
  subst hblval
  split at hline
  · have hlp : line = pfx := by simpa using hline
    subst hlp
    rw [List.drop_length]
    exact le_trans (Nat.le_refl _) (by simp [_visible_len, stripAnsiF])
  · rw [List.mem_map] at hline
    obtain ⟨wl, hwl, hlval⟩ := hline
    subst hlval
    rw [List.drop_left]
    split at hwl
    · have hwlnil : wl = [] := by simpa using hwl
      subst hwlnil
      simp [_visible_len, stripAnsiF]
    · have hlen : wl.length ≤ max (width - _visible_len pfx) 20 :=
        pyWrap_width_le seg _ (by omega) wl hwl
      exact le_trans (visible_len_le_length wl) hlen

/-- C6 witness: the bound instantiated at a concrete wrapped line. -/
theorem wrap_text_visible_width_le_witness :
    _visible_len ((S "| hello").drop (S "| ").length) ≤
      max (80 - _visible_len (S "| ")) 20 :=
  wrap_text_visible_width_le (S "hello") (S "| ") 80 (S "| hello") (by decide)
